import Mathlib

/-!
Verification of the breadcrumbs relationship-closure and path-enumeration
engine (`src/MatrixView.ts`): a shallow embedding of the traversal,
outline-rendering and neighborhood-deduplication functions, together with
theorems settling the specification's claims about them.
-/

namespace Breadcrumbs

/-- A directed relation graph, keyed by node identifier. Mirrors the
graphlib interface used by the source: `successors` returns the ordered
successor list, empty when the node is absent. -/
abbrev Graph := List (String × List String)

/-- `g.successors(node) ?? []` from the source: first matching entry wins,
absent nodes yield the empty sequence. -/
def successors (g : Graph) (node : String) : List String :=
  match g.find? (fun p => p.1 == node) with
  | some p => p.2
  | none => []

/-- One work-queue entry of `dfsAllPaths`: `{ node: string; path: string[] }`. -/
structure QEntry where
  node : String
  path : List String
deriving DecidableEq, Repr

/-- The loop of `dfsAllPaths` (MatrixView.ts lines 158-182), instrumented:
`fuel` is `1000 - i` so the guard `i < 1000` becomes fuel exhaustion, and the
returned triple carries the result array, the final pop counter `i`, and the
remaining queue.  Each iteration pops the front entry, prepends the current
node to its path, unshifts one new entry per successor (in order, as the
spread `unshift(...)` does), and finalizes the extended path when the node
has no successors. -/
def dfsLoop (g : Graph) : Nat → List QEntry → List (List String) → Nat →
    List (List String) × Nat × List QEntry
  | _, [], pathsArr, i => (pathsArr, i, [])
  | 0, queue, pathsArr, i => (pathsArr, i, queue)
  | fuel+1, currPath :: rest, pathsArr, i =>
    let newNodes := successors g currPath.node
    let extPath := currPath.node :: currPath.path
    let queue := newNodes.map (fun n => QEntry.mk n extPath) ++ rest
    let pathsArr := if newNodes.isEmpty then pathsArr ++ [extPath] else pathsArr
    dfsLoop g fuel queue pathsArr (i + 1)

/-- `dfsAllPaths` with its internal state exposed: result paths, total pops
performed, and the queue left at the moment the loop stopped. -/
def dfsAllPathsFull (g : Graph) (startNode : String) :
    List (List String) × Nat × List QEntry :=
  dfsLoop g 1000 [⟨startNode, []⟩] [] 0

/-- `dfsAllPaths(g, startNode)` (MatrixView.ts lines 158-182): the path
array returned to the caller. -/
def dfsAllPaths (g : Graph) (startNode : String) : List (List String) :=
  (dfsAllPathsFull g startNode).1

/-- An adjacency entry `{ name: currNode, parentId: succ }` as pushed by
`dfsAdjList`. -/
structure AdjListItem where
  name : String
  parentId : String
deriving DecidableEq, Repr

/-- The loop of `dfsAdjList` (MatrixView.ts lines 184-202), instrumented the
same way.  For each successor it pushes one adjacency entry and unshifts the
successor; the per-element `forEach` unshift reverses the successor block at
the queue front. -/
def adjLoop (g : Graph) : Nat → List String → List AdjListItem → Nat →
    List AdjListItem × Nat × List String
  | _, [], adjList, i => (adjList, i, [])
  | 0, queue, adjList, i => (adjList, i, queue)
  | fuel+1, currNode :: rest, adjList, i =>
    let newNodes := successors g currNode
    let queue := newNodes.reverse ++ rest
    let adjList := adjList ++ newNodes.map (fun succ => AdjListItem.mk currNode succ)
    adjLoop g fuel queue adjList (i + 1)

/-- `dfsAdjList` with pops and remaining queue exposed. -/
def dfsAdjListFull (g : Graph) (startNode : String) :
    List AdjListItem × Nat × List String :=
  adjLoop g 1000 [startNode] [] 0

/-- `dfsAdjList(g, startNode)` (MatrixView.ts lines 184-202). -/
def dfsAdjList (g : Graph) (startNode : String) : List AdjListItem :=
  (dfsAdjListFull g startNode).1

/-- The comparison `t => t.name === thing.name && t?.parentId ===
thing?.parentId` used by the `noDoubles` filter in `draw`. -/
def sameEdge (thing : AdjListItem) : AdjListItem → Bool :=
  fun t => t.name == thing.name && t.parentId == thing.parentId

/-- The `noDoubles` filter from `draw` (MatrixView.ts lines 281-287):
`adjList.filter((thing, index, self) => index === self.findIndex(t =>
t.name === thing.name && t?.parentId === thing?.parentId))` — an element is
kept exactly when its index equals the index of the first element with the
same `name` and `parentId`. -/
def noDoubles (adjList : List AdjListItem) : List AdjListItem :=
  (adjList.enum.filter (fun p => adjList.findIdx (sameEdge p.2) == p.1)).map
    Prod.snd

/-- The two `BreadcrumbsSettings` fields read by `createIndex`
(MatrixView.ts lines 204-261). -/
structure BreadcrumbsSettings where
  wikilinkIndex : Bool
  aliasesInIndex : Bool
deriving DecidableEq, Repr

/-- `indent.repeat(depth)` with `indent = "  "`. -/
def indentRepeat (depth : Nat) : String :=
  String.join (List.replicate depth "  ")

/-- The alias parenthetical appended by `createIndex` when
`settings.aliasesInIndex` is set: the external metadata-cache lookup chain
(frontmatter `alias` and `aliases`, flattened and concatenated) is modelled
by the collaborator function `aliasFn`. -/
def aliasSuffix (settings : BreadcrumbsSettings) (aliasFn : String → List String)
    (currNode : String) : String :=
  if settings.aliasesInIndex then
    let allAliases := aliasFn currNode
    if allAliases.isEmpty then "" else " (" ++ String.intercalate ", " allAliases ++ ")"
  else ""

/-- One rendered outline line of `createIndex`: two spaces of indent per
depth level, a bullet, the node identifier optionally wrapped in `[[ ]]`,
the optional alias parenthetical, and a newline. -/
def renderLine (settings : BreadcrumbsSettings) (aliasFn : String → List String)
    (depth : Nat) (currNode : String) : String :=
  indentRepeat depth ++ "- " ++
    (if settings.wikilinkIndex then "[[" else "") ++ currNode ++
    (if settings.wikilinkIndex then "]]" else "") ++
    aliasSuffix settings aliasFn currNode ++ "\n"

/-- The `visited` object of `createIndex`: node → depths already rendered. -/
abbrev Visited := List (String × List Nat)

/-- `visited.hasOwnProperty(currNode) && visited[currNode].includes(depth)`. -/
def visitedHas (visited : Visited) (currNode : String) (depth : Nat) : Bool :=
  match visited.find? (fun p => p.1 == currNode) with
  | some p => p.2.contains depth
  | none => false

/-- `if (!visited.hasOwnProperty(currNode)) visited[currNode] = [];
visited[currNode].push(depth)`. -/
def visitedPush (visited : Visited) (currNode : String) (depth : Nat) : Visited :=
  match visited with
  | [] => [(currNode, [depth])]
  | p :: rest =>
    if p.1 == currNode then (p.1, p.2 ++ [depth]) :: rest
    else p :: visitedPush rest currNode depth

/-- The inner `for (depth...)` loop of `createIndex` over one
reversed-and-trimmed path, accumulating the output string. -/
def indexPath (settings : BreadcrumbsSettings) (aliasFn : String → List String) :
    List String → Nat → Visited → String → Visited × String
  | [], _, visited, acc => (visited, acc)
  | currNode :: rest, depth, visited, acc =>
    if visitedHas visited currNode depth then
      indexPath settings aliasFn rest (depth + 1) visited acc
    else
      indexPath settings aliasFn rest (depth + 1) (visitedPush visited currNode depth)
        (acc ++ renderLine settings aliasFn depth currNode)

/-- The outer `reversed.forEach` loop of `createIndex`. -/
def indexLoop (settings : BreadcrumbsSettings) (aliasFn : String → List String) :
    List (List String) → Visited → String → Visited × String
  | [], visited, acc => (visited, acc)
  | path :: rest, visited, acc =>
    let st := indexPath settings aliasFn path 0 visited acc
    indexLoop settings aliasFn rest st.1 st.2

/-- `createIndex(index, allPaths, settings)` (MatrixView.ts lines 204-261):
clone the paths, reverse each, drop each first element (`shift`), then walk
every path rendering each not-yet-visited `(node, depth)` pair onto the
accumulated string. -/
def createIndex (index : String) (allPaths : List (List String))
    (settings : BreadcrumbsSettings) (aliasFn : String → List String) : String :=
  (indexLoop settings aliasFn
    ((allPaths.map (fun path => path.reverse)).map (fun path => path.drop 1))
    [] index).2

/-- The inner loop of `createIndex`, tracking the rendered `(node, depth)`
pairs instead of the concatenated string. -/
def indexPathLines : List String → Nat → Visited → List (String × Nat) →
    Visited × List (String × Nat)
  | [], _, visited, acc => (visited, acc)
  | currNode :: rest, depth, visited, acc =>
    if visitedHas visited currNode depth then
      indexPathLines rest (depth + 1) visited acc
    else
      indexPathLines rest (depth + 1) (visitedPush visited currNode depth)
        (acc ++ [(currNode, depth)])

/-- The outer loop of `createIndex`, at the level of rendered pairs. -/
def indexLinesLoop : List (List String) → Visited → List (String × Nat) →
    Visited × List (String × Nat)
  | [], visited, acc => (visited, acc)
  | path :: rest, visited, acc =>
    let st := indexPathLines path 0 visited acc
    indexLinesLoop rest st.1 st.2

/-- The `(node, depth)` pairs `createIndex` renders, in rendering order. -/
def createIndexLines (allPaths : List (List String)) : List (String × Nat) :=
  (indexLinesLoop
    ((allPaths.map (fun path => path.reverse)).map (fun path => path.drop 1))
    [] []).2

/-- Concatenation of the rendered lines of a pair list. -/
def joinRender (settings : BreadcrumbsSettings) (aliasFn : String → List String) :
    List (String × Nat) → String
  | [] => ""
  | e :: rest => renderLine settings aliasFn e.2 e.1 ++ joinRender settings aliasFn rest

/-- The `(node, depth)` pairs a single walked path contributes, starting at
the given depth. -/
def pathEntries : List String → Nat → List (String × Nat)
  | [], _ => []
  | currNode :: rest, depth => (currNode, depth) :: pathEntries rest (depth + 1)

theorem visitedHas_cons_of_ne (p : String × List Nat) (rest : Visited) (n' : String)
    (d' : Nat) (h : ¬p.1 = n') : visitedHas (p :: rest) n' d' = visitedHas rest n' d' := by
  simp [visitedHas, List.find?_cons_of_neg, h]

theorem visitedHas_cons_of_eq (p : String × List Nat) (rest : Visited) (n' : String)
    (d' : Nat) (h : p.1 = n') : visitedHas (p :: rest) n' d' = p.2.contains d' := by
  simp [visitedHas, List.find?_cons_of_pos, h]

theorem visitedHas_push (n : String) (d : Nat) :
    ∀ (visited : Visited) (n' : String) (d' : Nat),
      visitedHas (visitedPush visited n d) n' d' = true ↔
        (visitedHas visited n' d' = true ∨ (n' = n ∧ d' = d)) := by
  intro visited
  induction visited with
  | nil =>
    intro n' d'
    by_cases h : n = n'
    · subst h
      simp [visitedPush, visitedHas, List.find?_cons_of_pos, List.contains, List.elem_iff]
    · rw [visitedPush, visitedHas_cons_of_ne _ _ _ _ h]
      simp [visitedHas]
      intro hn
      exact absurd hn.symm h
  | cons p rest ih =>
    intro n' d'
    rw [visitedPush]
    by_cases h1 : p.1 = n
    · rw [if_pos (by simp [h1])]
      by_cases h2 : p.1 = n'
      · rw [visitedHas_cons_of_eq (p.1, p.2 ++ [d]) rest n' d' h2,
          visitedHas_cons_of_eq _ _ _ _ h2]
        subst h1; subst h2
        simp [List.contains, List.elem_iff]
      · rw [visitedHas_cons_of_ne (p.1, p.2 ++ [d]) rest n' d' h2,
          visitedHas_cons_of_ne _ _ _ _ h2]
        constructor
        · exact Or.inl
        · rintro (h | ⟨h, _⟩)
          · exact h
          · exact absurd (h1.trans h.symm) h2
    · rw [if_neg (by simp [h1])]
      by_cases h2 : p.1 = n'
      · rw [visitedHas_cons_of_eq _ _ _ _ h2, visitedHas_cons_of_eq _ _ _ _ h2]
        constructor
        · exact Or.inl
        · rintro (h | ⟨h, h'⟩)
          · exact h
          · exact absurd (h2.trans h) h1
      · rw [visitedHas_cons_of_ne _ _ _ _ h2, visitedHas_cons_of_ne _ _ _ _ h2]
        exact ih n' d'

theorem joinRender_append (settings : BreadcrumbsSettings) (aliasFn : String → List String) :
    ∀ (l1 l2 : List (String × Nat)),
      joinRender settings aliasFn (l1 ++ l2) =
        joinRender settings aliasFn l1 ++ joinRender settings aliasFn l2 := by
  intro l1
  induction l1 with
  | nil => intro l2; simp [joinRender, String.empty_append]
  | cons e rest ih => intro l2; simp [joinRender, ih, String.append_assoc]

theorem indexPathLines_acc (path : List String) :
    ∀ (depth : Nat) (visited : Visited) (acc : List (String × Nat)),
      indexPathLines path depth visited acc =
        ((indexPathLines path depth visited []).1,
          acc ++ (indexPathLines path depth visited []).2) := by
  induction path with
  | nil => intro d v acc; simp [indexPathLines]
  | cons n rest ih =>
    intro d v acc
    by_cases h : visitedHas v n d = true
    · simp only [indexPathLines, if_pos h]
      exact ih ..
    · simp only [indexPathLines, if_neg h, List.nil_append]
      rw [ih _ _ (acc ++ [(n, d)]), ih _ _ [(n, d)]]
      simp

theorem indexPath_eq_lines (settings : BreadcrumbsSettings) (aliasFn : String → List String)
    (path : List String) :
    ∀ (depth : Nat) (visited : Visited) (acc : String),
      indexPath settings aliasFn path depth visited acc =
        ((indexPathLines path depth visited []).1,
          acc ++ joinRender settings aliasFn (indexPathLines path depth visited []).2) := by
  induction path with
  | nil => intro d v acc; simp [indexPath, indexPathLines, joinRender, String.append_empty]
  | cons n rest ih =>
    intro d v acc
    by_cases h : visitedHas v n d = true
    · simp only [indexPath, indexPathLines, if_pos h]
      exact ih ..
    · simp only [indexPath, indexPathLines, if_neg h, List.nil_append]
      rw [ih, indexPathLines_acc rest (d + 1) (visitedPush v n d) [(n, d)]]
      simp [joinRender_append, joinRender, String.append_assoc, String.append_empty]

theorem indexLinesLoop_acc (paths : List (List String)) :
    ∀ (visited : Visited) (acc : List (String × Nat)),
      indexLinesLoop paths visited acc =
        ((indexLinesLoop paths visited []).1,
          acc ++ (indexLinesLoop paths visited []).2) := by
  induction paths with
  | nil => intro v acc; simp [indexLinesLoop]
  | cons p rest ih =>
    intro v acc
    simp only [indexLinesLoop]
    rw [indexPathLines_acc p 0 v acc]
    rw [ih ((indexPathLines p 0 v []).1) (acc ++ (indexPathLines p 0 v []).2),
        ih ((indexPathLines p 0 v []).1) ((indexPathLines p 0 v []).2)]
    simp

theorem indexLoop_eq_lines (settings : BreadcrumbsSettings) (aliasFn : String → List String)
    (paths : List (List String)) :
    ∀ (visited : Visited) (acc : String),
      indexLoop settings aliasFn paths visited acc =
        ((indexLinesLoop paths visited []).1,
          acc ++ joinRender settings aliasFn (indexLinesLoop paths visited []).2) := by
  induction paths with
  | nil => intro v acc; simp [indexLoop, indexLinesLoop, joinRender, String.append_empty]
  | cons p rest ih =>
    intro v acc
    simp only [indexLoop, indexLinesLoop]
    rw [indexPath_eq_lines, indexPathLines_acc p 0 v []]
    rw [ih]
    dsimp only
    rw [List.nil_append,
      indexLinesLoop_acc rest ((indexPathLines p 0 v []).1) ((indexPathLines p 0 v []).2)]
    simp [joinRender_append, String.append_assoc]

theorem createIndex_eq_lines (index : String) (allPaths : List (List String))
    (settings : BreadcrumbsSettings) (aliasFn : String → List String) :
    createIndex index allPaths settings aliasFn =
      index ++ joinRender settings aliasFn (createIndexLines allPaths) := by
  unfold createIndex createIndexLines
  rw [indexLoop_eq_lines]

theorem indexPathLines_spec (path : List String) :
    ∀ (depth : Nat) (visited : Visited) (acc : List (String × Nat)),
      (∀ n d, visitedHas visited n d = true ↔ (n, d) ∈ acc) → acc.Nodup →
      (∀ n d, visitedHas (indexPathLines path depth visited acc).1 n d = true ↔
          (n, d) ∈ (indexPathLines path depth visited acc).2) ∧
      (indexPathLines path depth visited acc).2.Nodup ∧
      (∀ n d, (n, d) ∈ (indexPathLines path depth visited acc).2 ↔
          ((n, d) ∈ acc ∨ (n, d) ∈ pathEntries path depth)) := by
  induction path with
  | nil =>
    intro depth v acc hinv hnd
    refine ⟨hinv, hnd, ?_⟩
    intro n dd
    simp [indexPathLines, pathEntries]
  | cons m rest ih =>
    intro depth v acc hinv hnd
    by_cases h : visitedHas v m depth = true
    · simp only [indexPathLines, if_pos h]
      obtain ⟨i1, i2, i3⟩ := ih (depth + 1) v acc hinv hnd
      refine ⟨i1, i2, ?_⟩
      intro n dd
      rw [i3]
      simp only [pathEntries, List.mem_cons]
      constructor
      · rintro (ha | hb)
        · exact Or.inl ha
        · exact Or.inr (Or.inr hb)
      · rintro (ha | he | hb)
        · exact Or.inl ha
        · rw [he] at *
          exact Or.inl ((hinv m depth).1 h)
        · exact Or.inr hb
    · simp only [indexPathLines, if_neg h]
      have hinv2 : ∀ n dd, visitedHas (visitedPush v m depth) n dd = true ↔
          (n, dd) ∈ acc ++ [(m, depth)] := by
        intro n dd
        rw [visitedHas_push]
        simp only [List.mem_append, List.mem_singleton, Prod.mk.injEq, hinv n dd]
      have hmem : (m, depth) ∉ acc := fun hc => h ((hinv m depth).2 hc)
      have hnd2 : (acc ++ [(m, depth)]).Nodup := by
        simp [List.nodup_append, hnd, hmem]
      obtain ⟨i1, i2, i3⟩ := ih (depth + 1) (visitedPush v m depth) (acc ++ [(m, depth)]) hinv2 hnd2
      refine ⟨i1, i2, ?_⟩
      intro n dd
      rw [i3]
      simp only [pathEntries, List.mem_cons, List.mem_append, List.mem_singleton]
      tauto

theorem indexLinesLoop_spec (paths : List (List String)) :
    ∀ (visited : Visited) (acc : List (String × Nat)),
      (∀ n d, visitedHas visited n d = true ↔ (n, d) ∈ acc) → acc.Nodup →
      (∀ n d, visitedHas (indexLinesLoop paths visited acc).1 n d = true ↔
          (n, d) ∈ (indexLinesLoop paths visited acc).2) ∧
      (indexLinesLoop paths visited acc).2.Nodup ∧
      (∀ n d, (n, d) ∈ (indexLinesLoop paths visited acc).2 ↔
          ((n, d) ∈ acc ∨ ∃ p ∈ paths, (n, d) ∈ pathEntries p 0)) := by
  induction paths with
  | nil =>
    intro v acc hinv hnd
    refine ⟨hinv, hnd, ?_⟩
    intro n dd
    simp [indexLinesLoop]
  | cons p rest ih =>
    intro v acc hinv hnd
    simp only [indexLinesLoop]
    obtain ⟨j1, j2, j3⟩ := indexPathLines_spec p 0 v acc hinv hnd
    obtain ⟨i1, i2, i3⟩ := ih (indexPathLines p 0 v acc).1 (indexPathLines p 0 v acc).2 j1 j2
    refine ⟨i1, i2, ?_⟩
    intro n dd
    rw [i3, j3]
    simp only [List.mem_cons]
    constructor
    · rintro ((ha | hp) | ⟨q, hq, hmem⟩)
      · exact Or.inl ha
      · exact Or.inr ⟨p, Or.inl rfl, hp⟩
      · exact Or.inr ⟨q, Or.inr hq, hmem⟩
    · rintro (ha | ⟨q, hq | hq, hmem⟩)
      · exact Or.inl (Or.inl ha)
      · subst hq
        exact Or.inl (Or.inr hmem)
      · exact Or.inr ⟨q, hq, hmem⟩

theorem createIndexLines_spec (allPaths : List (List String)) :
    (createIndexLines allPaths).Nodup ∧
      ∀ n d, (n, d) ∈ createIndexLines allPaths ↔
        ∃ p ∈ (allPaths.map (fun path => path.reverse)).map (fun path => path.drop 1),
          (n, d) ∈ pathEntries p 0 := by
  have h0 : ∀ n d, visitedHas [] n d = true ↔ (n, d) ∈ ([] : List (String × Nat)) := by
    intro n d
    simp [visitedHas, List.find?]
  obtain ⟨i1, i2, i3⟩ := indexLinesLoop_spec
    ((allPaths.map (fun path => path.reverse)).map (fun path => path.drop 1)) [] [] h0 List.nodup_nil
  refine ⟨i2, ?_⟩
  intro n d
  rw [createIndexLines]
  rw [i3]
  simp

theorem sameEdge_congr (x y : AdjListItem) (h1 : y.name = x.name)
    (h2 : y.parentId = x.parentId) : sameEdge y = sameEdge x := by
  funext t
  simp [sameEdge, h1, h2]

theorem noDoubles_pairwise (l : List AdjListItem) :
    (noDoubles l).Pairwise (fun a b => ¬(a.name = b.name ∧ a.parentId = b.parentId)) := by
  have henum : l.enum.Pairwise (fun a b => a.1 ≠ b.1) := by
    have h1 : (l.enum.map Prod.fst).Nodup := by
      rw [List.enum_map_fst]
      exact List.nodup_range l.length
    exact List.pairwise_map.1 h1
  have hfil : (l.enum.filter (fun p => l.findIdx (sameEdge p.2) == p.1)).Pairwise
      (fun a b => a.1 ≠ b.1) := henum.filter _
  rw [noDoubles, List.pairwise_map]
  refine hfil.imp_of_mem ?_
  intro a b ha hb hne hkey
  have Pa := (List.mem_filter.1 ha).2
  have Pb := (List.mem_filter.1 hb).2
  have ea : l.findIdx (sameEdge a.2) = a.1 := by simpa using Pa
  have eb : l.findIdx (sameEdge b.2) = b.1 := by simpa using Pb
  have hse : sameEdge a.2 = sameEdge b.2 :=
    sameEdge_congr b.2 a.2 hkey.1 hkey.2
  exact hne (ea.symm.trans (by rw [hse, eb]))

theorem noDoubles_sublist (l : List AdjListItem) : List.Sublist (noDoubles l) l := by
  have h := (List.filter_sublist (p := fun p => l.findIdx (sameEdge p.2) == p.1) l.enum).map
    Prod.snd
  rw [List.enum_map_snd] at h
  exact h

theorem noDoubles_complete (l : List AdjListItem) :
    ∀ x ∈ l, ∃ y ∈ noDoubles l, y.name = x.name ∧ y.parentId = x.parentId := by
  intro x hx
  have hex : ∃ t ∈ l, sameEdge x t := ⟨x, hx, by simp [sameEdge]⟩
  have hk : l.findIdx (sameEdge x) < l.length := List.findIdx_lt_length_of_exists hex
  have hyP : sameEdge x (l.get ⟨l.findIdx (sameEdge x), hk⟩) = true := List.findIdx_get
  have hkey : (l.get ⟨l.findIdx (sameEdge x), hk⟩).name = x.name ∧
      (l.get ⟨l.findIdx (sameEdge x), hk⟩).parentId = x.parentId := by
    simpa [sameEdge] using hyP
  refine ⟨l.get ⟨l.findIdx (sameEdge x), hk⟩, ?_, hkey⟩
  rw [noDoubles]
  apply List.mem_map.2
  refine ⟨(l.findIdx (sameEdge x), l.get ⟨l.findIdx (sameEdge x), hk⟩), ?_, rfl⟩
  apply List.mem_filter.2
  constructor
  · apply List.mk_mem_enum_iff_getElem?.2
    rw [List.getElem?_eq_getElem hk]
    simp [List.get_eq_getElem]
  · have hse : sameEdge (l.get ⟨l.findIdx (sameEdge x), hk⟩) = sameEdge x :=
      sameEdge_congr x _ hkey.1 hkey.2
    rw [List.get_eq_getElem] at hse
    simp [hse]

/-- The queue entries of `dfsAllPaths` always carry the start node as the
last element of `node :: path`, and `node :: path` read left to right steps
backwards along edges of `g`. -/
def GoodEntry (g : Graph) (s : String) (e : QEntry) : Prop :=
  (e.node :: e.path).getLast? = some s ∧
    List.Chain' (fun a b => a ∈ successors g b) (e.node :: e.path)

/-- A finalized path of `dfsAllPaths`: nonempty, headed by a sink of `g`,
ending at the start node, and consecutive elements linked by edges of `g`
read child-to-parent (i.e. the reversal is a walk from the start). -/
def GoodPath (g : Graph) (s : String) (p : List String) : Prop :=
  ∃ v rest, p = v :: rest ∧ successors g v = [] ∧ p.getLast? = some s ∧
    List.Chain' (fun a b => a ∈ successors g b) p

theorem dfsLoop_count_le (g : Graph) (fuel : Nat) :
    ∀ (q : List QEntry) (acc : List (List String)) (i : Nat),
      (dfsLoop g fuel q acc i).2.1 ≤ i + fuel := by
  induction fuel with
  | zero =>
    intro q acc i
    cases q <;> simp [dfsLoop]
  | succ fuel ih =>
    intro q acc i
    cases q with
    | nil => simp [dfsLoop]
    | cons e rest =>
      simp only [dfsLoop]
      exact (ih _ _ _).trans (by omega)

theorem dfsLoop_stop (g : Graph) (fuel : Nat) :
    ∀ (q : List QEntry) (acc : List (List String)) (i : Nat),
      (dfsLoop g fuel q acc i).2.2 ≠ [] →
      (dfsLoop g fuel q acc i).2.1 = i + fuel := by
  induction fuel with
  | zero =>
    intro q acc i h
    cases q with
    | nil => simp [dfsLoop] at h
    | cons e rest => simp [dfsLoop]
  | succ fuel ih =>
    intro q acc i h
    cases q with
    | nil => simp [dfsLoop] at h
    | cons e rest =>
      simp only [dfsLoop] at h ⊢
      rw [ih _ _ _ h]
      omega

theorem adjLoop_count_le (g : Graph) (fuel : Nat) :
    ∀ (q : List String) (acc : List AdjListItem) (i : Nat),
      (adjLoop g fuel q acc i).2.1 ≤ i + fuel := by
  induction fuel with
  | zero =>
    intro q acc i
    cases q <;> simp [adjLoop]
  | succ fuel ih =>
    intro q acc i
    cases q with
    | nil => simp [adjLoop]
    | cons n rest =>
      simp only [adjLoop]
      exact (ih _ _ _).trans (by omega)

theorem adjLoop_stop (g : Graph) (fuel : Nat) :
    ∀ (q : List String) (acc : List AdjListItem) (i : Nat),
      (adjLoop g fuel q acc i).2.2 ≠ [] →
      (adjLoop g fuel q acc i).2.1 = i + fuel := by
  induction fuel with
  | zero =>
    intro q acc i h
    cases q with
    | nil => simp [adjLoop] at h
    | cons n rest => simp [adjLoop]
  | succ fuel ih =>
    intro q acc i h
    cases q with
    | nil => simp [adjLoop] at h
    | cons n rest =>
      simp only [adjLoop] at h ⊢
      rw [ih _ _ _ h]
      omega

theorem dfsLoop_sound (g : Graph) (s : String) (fuel : Nat) :
    ∀ (q : List QEntry) (acc : List (List String)) (i : Nat),
      (∀ e ∈ q, GoodEntry g s e) → (∀ p ∈ acc, GoodPath g s p) →
      ∀ p ∈ (dfsLoop g fuel q acc i).1, GoodPath g s p := by
  induction fuel with
  | zero =>
    intro q acc i hq hacc p hp
    cases q <;> simp only [dfsLoop] at hp <;> exact hacc p hp
  | succ fuel ih =>
    intro q acc i hq hacc p hp
    cases q with
    | nil =>
      simp only [dfsLoop] at hp
      exact hacc p hp
    | cons e rest =>
      simp only [dfsLoop] at hp
      have he : GoodEntry g s e := hq e (by simp)
      refine ih _ _ _ ?_ ?_ p hp
      · intro e' he'
        rcases List.mem_append.1 he' with hnew | hold
        · rcases List.mem_map.1 hnew with ⟨n, hn, rfl⟩
          constructor
          · simpa [List.getLast?_cons_cons] using he.1
          · exact List.chain'_cons.2 ⟨hn, he.2⟩
        · exact hq e' (List.mem_cons_of_mem _ hold)
      · intro p' hp'
        by_cases hnew : (successors g e.node).isEmpty
        · rw [if_pos hnew] at hp'
          rcases List.mem_append.1 hp' with hold | hlast
          · exact hacc p' hold
          · have hp'' : p' = e.node :: e.path := by simpa using hlast
            subst hp''
            exact ⟨e.node, e.path, rfl, List.isEmpty_iff.1 hnew, he.1, he.2⟩
        · rw [if_neg hnew] at hp'
          exact hacc p' hp'

/-- Every path returned by `dfsAllPaths` is headed by a sink, ends at the
start node, and steps along edges of `g` child-to-parent. -/
theorem dfsAllPaths_sound (g : Graph) (s : String) :
    ∀ p ∈ dfsAllPaths g s, GoodPath g s p := by
  intro p hp
  refine dfsLoop_sound g s 1000 _ _ _ ?_ (by simp) p hp
  intro e he
  have : e = ⟨s, []⟩ := by simpa using he
  subst this
  exact ⟨rfl, List.chain'_singleton s⟩

/-- When the start node has no successors (also when it is absent from the
graph), the traversal finalizes the single path `[s]` on its first pop and
stops with an empty queue. -/
theorem dfsAllPaths_of_sink (g : Graph) (s : String)
    (h : successors g s = []) : dfsAllPaths g s = [[s]] := by
  show (dfsLoop g 1000 [⟨s, []⟩] [] 0).1 = [[s]]
  rw [show (1000 : Nat) = 999 + 1 from rfl]
  simp only [dfsLoop, h]
  simp [dfsLoop]

end Breadcrumbs

namespace Breadcrumbs

-- Concrete graphs used by the spec's scenarios.

/-- Children graph of the spec scenario: `Root -> Mid`, `Mid -> Leaf`. -/
def childrenGraph : Graph :=
  [("Root", ["Mid"]), ("Mid", ["Leaf"])]

/-- Cyclic graph of the spec scenario: `A -> B -> A`. -/
def cycleGraph : Graph :=
  [("A", ["B"]), ("B", ["A"])]

/-- Diamond DAG: `A -> B`, `A -> C`, `B -> D`, `C -> D`; depth 2, one sink. -/
def diamondGraph : Graph :=
  [("A", ["B", "C"]), ("B", ["D"]), ("C", ["D"]), ("D", [])]

end Breadcrumbs
namespace Breadcrumbs

/-- `internalLinkObj`: `{ to: string; cls: string }`. -/
structure internalLinkObj where
  «to» : String
  cls : String
deriving DecidableEq, Repr

/-- `removeDuplicateImplied(reals, implieds)` (MatrixView.ts lines 150-156):
keep the implied links whose target is not among the real targets. -/
def removeDuplicateImplied (reals implieds : List internalLinkObj) :
    List internalLinkObj :=
  let realTos := reals.map (fun real => real.«to»)
  implieds.filter (fun implied => !realTos.contains implied.«to»)

/-- Graph used against C7: `N` is reachable from `A` through both `B` and
`C`, so `dfsAdjList` pops `N` twice and emits the entry `(N, M)` twice. -/
def doubleGraph : Graph :=
  [("A", ["B", "C"]), ("B", ["N"]), ("C", ["N"]), ("N", ["M"])]

/-- Graph whose traversal from `A` exhausts the budget (the self-loop on
`C` keeps the queue busy) yet still returns the one finalized path. -/
def truncGraph : Graph :=
  [("A", ["B", "C"]), ("C", ["C"])]

/-- Graph whose traversal from `A` finishes early with the same result as
`truncGraph`. -/
def finishGraph : Graph :=
  [("A", ["B"])]

set_option maxRecDepth 20000

/-- C1: for every graph and start node, `dfsAllPaths` and `dfsAdjList`
terminate (they are total functions of their fuel-counted loops), perform
at most 1000 queue-pop iterations each, and whenever the loop halts with a
non-empty work queue the pop counter has hit the bound 1000 exactly. -/
theorem claimC1_traversal_budget (g : Graph) (s : String) :
    (dfsAllPathsFull g s).2.1 ≤ 1000 ∧ (dfsAdjListFull g s).2.1 ≤ 1000 ∧
    ((dfsAllPathsFull g s).2.2 ≠ [] → (dfsAllPathsFull g s).2.1 = 1000) ∧
    ((dfsAdjListFull g s).2.2 ≠ [] → (dfsAdjListFull g s).2.1 = 1000) :=
  ⟨dfsLoop_count_le g 1000 [⟨s, []⟩] [] 0,
   adjLoop_count_le g 1000 [s] [] 0,
   fun h => dfsLoop_stop g 1000 [⟨s, []⟩] [] 0 h,
   fun h => adjLoop_stop g 1000 [s] [] 0 h⟩

/-- Witness for C1 at the cyclic graph `A -> B -> A`: both traversals halt
with a non-empty queue after exactly 1000 pops. -/
theorem claimC1_traversal_budget_witness :
    (dfsAllPathsFull cycleGraph "A").2.1 = 1000 ∧
    (dfsAdjListFull cycleGraph "A").2.1 = 1000 :=
  ⟨(claimC1_traversal_budget cycleGraph "A").2.2.1 (by decide),
   (claimC1_traversal_budget cycleGraph "A").2.2.2 (by decide)⟩

end Breadcrumbs
namespace Breadcrumbs

set_option maxRecDepth 20000

/-- Counterexample to C2: on the children graph `Root -> Mid -> Leaf`,
`dfsAllPaths(children_graph, "Root")` returns `[["Leaf","Mid","Root"]]`,
not `[["Root","Mid","Leaf"]]`; the returned path does not start at the
start node. -/
theorem claimC2_counterexample :
    dfsAllPaths childrenGraph "Root" = [["Leaf", "Mid", "Root"]] ∧
    dfsAllPaths childrenGraph "Root" ≠ [["Root", "Mid", "Leaf"]] ∧
    (["Leaf", "Mid", "Root"] : List String).head? ≠ some "Root" := by
  refine ⟨by decide, by decide, by decide⟩

/-- C2 as amended: every path returned by `dfsAllPaths` is a sequence that
starts at a sink node and ends at the start node (paths are built by
prepending, so they are stored leaf-to-root); in particular the children
scenario yields `[["Leaf","Mid","Root"]]`. -/
theorem claimC2_amended :
    (∀ (g : Graph) (s : String), ∀ p ∈ dfsAllPaths g s,
        p.getLast? = some s ∧ ∃ v rest, p = v :: rest ∧ successors g v = []) ∧
    dfsAllPaths childrenGraph "Root" = [["Leaf", "Mid", "Root"]] := by
  constructor
  · intro g s p hp
    obtain ⟨v, rest, hpv, hsink, hlast, _⟩ := dfsAllPaths_sound g s p hp
    exact ⟨hlast, v, rest, hpv, hsink⟩
  · decide

/-- Witness for C2 (amended) at the children scenario: the returned path
ends at the start node `Root` and its head `Leaf` is a sink. -/
theorem claimC2_amended_witness :
    (["Leaf", "Mid", "Root"] : List String).getLast? = some "Root" ∧
    ∃ v rest, (["Leaf", "Mid", "Root"] : List String) = v :: rest ∧
      successors childrenGraph v = [] :=
  claimC2_amended.1 childrenGraph "Root" ["Leaf", "Mid", "Root"] (by decide)

/-- C3: composing `dfsAllPaths` on the children graph with `createIndex`
(initial index `"Root\n"`, wikilinks and aliases off) yields exactly
`"Root\n- Mid\n  - Leaf\n"`. -/
theorem claimC3_children_outline :
    createIndex "Root\n" (dfsAllPaths childrenGraph "Root")
      ⟨false, false⟩ (fun _ => []) = "Root\n- Mid\n  - Leaf\n" := by
  decide

/-- Counterexample to C4: on the cycle `A -> B -> A` the result of
`dfsAllPaths` from `A` is empty, not non-empty — a pure cycle has no sink,
so no path is ever finalized. -/
theorem claimC4_counterexample : dfsAllPaths cycleGraph "A" = [] := by
  decide

/-- C4 as amended: on the cycle `A -> B -> A`, `dfsAllPaths` from `A`
terminates after consuming the whole iteration budget (1000 pops with the
queue still non-empty) and returns a finite — in fact empty — collection
without raising an error. -/
theorem claimC4_amended :
    (dfsAllPathsFull cycleGraph "A").2.1 = 1000 ∧
    (dfsAllPathsFull cycleGraph "A").2.2 ≠ [] ∧
    dfsAllPaths cycleGraph "A" = [] := by
  refine ⟨by decide, by decide, by decide⟩

/-- Counterexample to C5: the diamond `A -> B -> D`, `A -> C -> D` is a
DAG of depth 2 (well within the budget) with exactly one sink `D`
reachable from `A`, yet `dfsAllPaths` returns two distinct paths, both
ending at that sink — one path per route, not per sink. -/
theorem claimC5_counterexample :
    dfsAllPaths diamondGraph "A" = [["D", "B", "A"], ["D", "C", "A"]] ∧
    (["D", "B", "A"] : List String) ≠ ["D", "C", "A"] ∧
    (dfsAllPaths diamondGraph "A").map List.head? = [some "D", some "D"] ∧
    successors diamondGraph "D" = [] := by
  refine ⟨by decide, by decide, by decide, by decide⟩

/-- C5 as amended: every path returned by `dfsAllPaths` lists the nodes of
a route from the start to a sink (leaf-to-root: the head is a sink, the
tail ends at the start, and consecutive elements are linked by graph
edges); a sink reachable via several routes contributes several paths, as
on the diamond. -/
theorem claimC5_amended :
    (∀ (g : Graph) (s : String), ∀ p ∈ dfsAllPaths g s,
        (∃ v rest, p = v :: rest ∧ successors g v = []) ∧
        p.getLast? = some s ∧
        List.Chain' (fun a b => a ∈ successors g b) p) ∧
    dfsAllPaths diamondGraph "A" = [["D", "B", "A"], ["D", "C", "A"]] := by
  constructor
  · intro g s p hp
    obtain ⟨v, rest, hpv, hsink, hlast, hchain⟩ := dfsAllPaths_sound g s p hp
    exact ⟨⟨v, rest, hpv, hsink⟩, hlast, hchain⟩
  · decide

/-- Witness for C5 (amended) at the diamond: the first returned path
`["D","B","A"]` is a route from `A` to the sink `D`. -/
theorem claimC5_amended_witness :
    (∃ v rest, (["D", "B", "A"] : List String) = v :: rest ∧
        successors diamondGraph v = []) ∧
    (["D", "B", "A"] : List String).getLast? = some "A" ∧
    List.Chain' (fun a b => a ∈ successors diamondGraph b) ["D", "B", "A"] :=
  claimC5_amended.1 diamondGraph "A" ["D", "B", "A"] (by decide)

end Breadcrumbs
namespace Breadcrumbs

set_option maxRecDepth 20000

/-- C6: `createIndex` renders a node at a given depth at most once across
all paths — the output is the initial index followed by the rendering of
the `(node, depth)` line list, that list never repeats a pair, a pair is
rendered exactly when it occurs in some reversed-and-trimmed path (so the
same node at a different depth is rendered again) — and on the two paths
`[A,B,C]`, `[A,B,D]` (root `A`, fed leaf-to-root as the enumerator
produces them) the outline lists `B` once at depth 0 and `C`, `D` once
each at depth 1. -/
theorem claimC6_outline_dedup :
    (∀ (index : String) (allPaths : List (List String))
        (settings : BreadcrumbsSettings) (aliasFn : String → List String),
        createIndex index allPaths settings aliasFn =
          index ++ joinRender settings aliasFn (createIndexLines allPaths)) ∧
    (∀ allPaths : List (List String), (createIndexLines allPaths).Nodup) ∧
    (∀ (allPaths : List (List String)) (n : String) (d : Nat),
        (n, d) ∈ createIndexLines allPaths ↔
          ∃ p ∈ (allPaths.map (fun path => path.reverse)).map
              (fun path => path.drop 1), (n, d) ∈ pathEntries p 0) ∧
    createIndex "" [["C", "B", "A"], ["D", "B", "A"]] ⟨false, false⟩
        (fun _ => []) = "- B\n  - C\n  - D\n" ∧
    createIndexLines [["C", "B", "A"], ["D", "B", "A"]] =
      [("B", 0), ("C", 1), ("D", 1)] := by
  refine ⟨createIndex_eq_lines, fun allPaths => (createIndexLines_spec allPaths).1,
    fun allPaths n d => (createIndexLines_spec allPaths).2 n d, by decide, by decide⟩

/-- Counterexample to C7: on the graph `A -> {B, C}`, `B -> N`, `C -> N`,
`N -> M`, the node `N` is popped twice, so `dfsAdjList` itself returns the
entry `(N, M)` twice — the flat list it produces is not duplicate-free. -/
theorem claimC7_counterexample :
    dfsAdjList doubleGraph "A" =
      [⟨"A", "B"⟩, ⟨"A", "C"⟩, ⟨"C", "N"⟩, ⟨"N", "M"⟩, ⟨"B", "N"⟩, ⟨"N", "M"⟩] ∧
    (dfsAdjList doubleGraph "A").count ⟨"N", "M"⟩ = 2 := by
  refine ⟨by decide, by decide⟩

/-- C7 as amended: `dfsAdjList` itself may emit duplicate entries when a
node is revisited via multiple paths; the `noDoubles` filter applied in
`draw` before hierarchy building collapses them — its output has no two
entries with the same `name` and `parentId`, is a subsequence of the raw
adjacency list (preserving first-seen order), and retains one entry for
every `(name, parentId)` pair of the raw list. -/
theorem claimC7_amended (g : Graph) (s : String) :
    (noDoubles (dfsAdjList g s)).Pairwise
        (fun a b => ¬(a.name = b.name ∧ a.parentId = b.parentId)) ∧
    List.Sublist (noDoubles (dfsAdjList g s)) (dfsAdjList g s) ∧
    ∀ x ∈ dfsAdjList g s, ∃ y ∈ noDoubles (dfsAdjList g s),
        y.name = x.name ∧ y.parentId = x.parentId :=
  ⟨noDoubles_pairwise (dfsAdjList g s), noDoubles_sublist (dfsAdjList g s),
   noDoubles_complete (dfsAdjList g s)⟩

/-- Witness for C7 (amended): the duplicated raw entry `(N, M)` of the
double-route graph is still represented after `noDoubles`. -/
theorem claimC7_amended_witness :
    ∃ y ∈ noDoubles (dfsAdjList doubleGraph "A"),
      y.name = (AdjListItem.mk "N" "M").name ∧
      y.parentId = (AdjListItem.mk "N" "M").parentId :=
  (claimC7_amended doubleGraph "A").2.2 ⟨"N", "M"⟩ (by decide)

/-- C8: `removeDuplicateImplied` returns exactly those implied entries
whose target does not occur among the targets of the real entries, so no
target identifier appears in both the real list and the filtered implied
list. -/
theorem claimC8_real_implied_disjoint (reals implieds : List internalLinkObj) :
    (∀ x ∈ removeDuplicateImplied reals implieds,
        x ∈ implieds ∧ ∀ r ∈ reals, r.«to» ≠ x.«to») ∧
    (∀ x ∈ implieds, (∀ r ∈ reals, r.«to» ≠ x.«to») →
        x ∈ removeDuplicateImplied reals implieds) := by
  constructor
  · intro x hx
    have h := List.mem_filter.1 hx
    refine ⟨h.1, ?_⟩
    intro r hr he
    have hb := h.2
    simp only [List.contains, Bool.not_eq_true', ← Bool.not_eq_true, List.elem_iff] at hb
    exact hb (List.mem_map.2 ⟨r, hr, he⟩)
  · intro x hx hdis
    apply List.mem_filter.2
    refine ⟨hx, ?_⟩
    have hnotmem : x.«to» ∉ reals.map (fun real => real.«to») := by
      intro hmem
      obtain ⟨r, hr, he⟩ := List.mem_map.1 hmem
      exact hdis r hr he
    simpa [List.contains, Bool.not_eq_true', ← Bool.not_eq_true, List.elem_iff] using hnotmem

end Breadcrumbs
namespace Breadcrumbs

set_option maxRecDepth 20000

/-- Witness for C8 at a concrete bundle: with one real parent `P`, the
implied entry targeting `Q` survives the filter. -/
theorem claimC8_real_implied_disjoint_witness :
    (internalLinkObj.mk "Q" "implied") ∈
      removeDuplicateImplied [⟨"P", "real"⟩] [⟨"P", "implied"⟩, ⟨"Q", "implied"⟩] :=
  (claimC8_real_implied_disjoint [⟨"P", "real"⟩] [⟨"P", "implied"⟩, ⟨"Q", "implied"⟩]).2
    ⟨"Q", "implied"⟩ (by decide) (by decide)

/-- Counterexample to C9: the traversal exposes no bound-reached flag —
its only output is the path array, and a budget-exhausted run (the
self-loop graph, 1000 pops) returns a value identical to a completed run
(the one-edge graph, 2 pops), so the caller cannot detect truncation from
what `dfsAllPaths` returns. -/
theorem claimC9_counterexample :
    (dfsAllPathsFull truncGraph "A").2.1 = 1000 ∧
    (dfsAllPathsFull finishGraph "A").2.1 = 2 ∧
    dfsAllPaths truncGraph "A" = [["B", "A"]] ∧
    dfsAllPaths finishGraph "A" = [["B", "A"]] := by
  refine ⟨by decide, by decide, by decide, by decide⟩

/-- C9 as amended: at the bound `dfsAllPaths` throws no error and silently
truncates — the caller receives exactly the finalized-path array, the pop
counter stays at most 1000 and is not part of the return value, and
distinct graphs, one truncated and one complete, can yield equal return
values, so truncation is not detectable by the caller. -/
theorem claimC9_amended :
    (∀ (g : Graph) (s : String), dfsAllPaths g s = (dfsAllPathsFull g s).1 ∧
        (dfsAllPathsFull g s).2.1 ≤ 1000) ∧
    ∃ (g₁ g₂ : Graph) (s : String),
      (dfsAllPathsFull g₁ s).2.1 = 1000 ∧ (dfsAllPathsFull g₂ s).2.1 < 1000 ∧
      dfsAllPaths g₁ s = dfsAllPaths g₂ s := by
  constructor
  · intro g s
    exact ⟨rfl, dfsLoop_count_le g 1000 [⟨s, []⟩] [] 0⟩
  · exact ⟨truncGraph, finishGraph, "A", by decide, by decide, by decide⟩

/-- C10: every path returned by `dfsAllPaths g s` is non-empty, has `s` as
its last element and a successor-less node as its first element; when `s`
itself has no successors (also when `s` is absent from the graph), the
result is exactly `[[s]]`. -/
theorem claimC10_path_shape (g : Graph) (s : String) :
    (∀ p ∈ dfsAllPaths g s, p ≠ [] ∧ p.getLast? = some s ∧
        ∀ v, p.head? = some v → successors g v = []) ∧
    (successors g s = [] → dfsAllPaths g s = [[s]]) := by
  constructor
  · intro p hp
    obtain ⟨v, rest, hpv, hsink, hlast, _⟩ := dfsAllPaths_sound g s p hp
    subst hpv
    refine ⟨by simp, hlast, ?_⟩
    intro v' hv'
    have hv : v = v' := by simpa using hv'
    subst hv
    exact hsink
  · exact dfsAllPaths_of_sink g s

/-- Witness for C10 on the empty graph, where the start node `Solo` is
absent and therefore successor-less: the single returned path is
`[["Solo"]]`, which indeed ends at the start node. -/
theorem claimC10_path_shape_witness :
    successors ([] : Graph) "Solo" = [] ∧
    dfsAllPaths ([] : Graph) "Solo" = [["Solo"]] ∧
    (["Solo"] : List String).getLast? = some "Solo" :=
  ⟨rfl, (claimC10_path_shape [] "Solo").2 rfl,
   ((claimC10_path_shape [] "Solo").1 ["Solo"]
      (by rw [(claimC10_path_shape [] "Solo").2 rfl]; exact List.mem_singleton.2 rfl)).2.1⟩

end Breadcrumbs
